import Mathlib

/-!
Verification of the cloud-cost-manager repository.

The visible source slice is the React presentation layer (ui/src/api.js and
the application component); the backend aggregation engine (Credential
Resolver, Cost Provider, Account Fetcher, Aggregator, Report Service) is
described by the specification but its code is not part of the slice.
The backend is therefore modelled from the spec (each such definition says
so in its doc comment), while the UI functions are embedded directly from
the JavaScript source. Money amounts are modelled as rationals.
-/

namespace CloudCost

/-- Modelled from the spec (section 3): one credential strategy per account. -/
inductive CredStrategy
  | staticKeys (accessKeyId secretAccessKey : String)
  | namedProfile (profile : String)
  | assumeRole (roleArn : String) (externalId : Option String) (baseSource : String)
deriving DecidableEq, Repr

/-- Modelled from the spec (section 3): AccountConfig identifies one account,
with a caller-chosen label and exactly one credential strategy. -/
structure AccountConfig where
  account_ref : String
  cred : CredStrategy
deriving DecidableEq, Repr

/-- Modelled from the spec (section 3): PeriodCost is a service-name-to-cost
mapping for one account and date range, plus a scalar total. -/
structure PeriodCost where
  services : List (String × ℚ)
  total : ℚ
deriving DecidableEq, Repr

/-- Modelled from the spec (section 3): provider-reported account identity. -/
structure AccountIdentity where
  account_id : String
  account_name : String
deriving DecidableEq, Repr

/-- Modelled from the spec (section 7): the error taxonomy carried by a
failed AccountResult (CredentialError and ProviderError kinds). -/
inductive ErrorKind
  | ProfileNotFound
  | AssumeRoleDenied
  | AssumeRoleThrottled
  | Throttled
  | AccessDenied
  | Unavailable
  | Malformed
deriving DecidableEq, Repr

/-- Modelled from the spec (section 3): AccountResult is either a success
carrying identity plus current and previous PeriodCost, or a per-account
failure. Exactly one of the two variants holds. -/
inductive AccountResult
  | Ok (identity : AccountIdentity) (current : PeriodCost) (previous : PeriodCost)
  | Failed (account_ref : String) (kind : ErrorKind) (message : String)
deriving DecidableEq, Repr

/-- Whether an AccountResult is the Failed variant. -/
def AccountResult.isFailed : AccountResult → Bool
  | .Ok .. => false
  | .Failed .. => true

/-- Modelled from the spec (sections 3 and 6): one summary entry per
configured account; failed accounts carry a null total and the failed flag. -/
structure AccountSummary where
  account_id : String
  account_name : String
  account_ref : String
  total : Option ℚ
  failed : Bool
deriving DecidableEq, Repr

/-- Modelled from the spec (sections 3 and 6): the aggregate Report. -/
structure Report where
  total_all : ℚ
  prev_total : ℚ
  delta : ℚ
  delta_pct : ℚ
  top_services : List (String × ℚ)
  summaries : List AccountSummary
deriving DecidableEq, Repr

/-- The succeeded results of a run, in order: identity, current period,
previous period (Aggregator algorithm step 3, partition). -/
def succeededOf (results : List (AccountConfig × AccountResult)) :
    List (AccountIdentity × PeriodCost × PeriodCost) :=
  results.filterMap fun pr =>
    match pr.2 with
    | .Ok idn cur prev => some (idn, cur, prev)
    | .Failed .. => none

/-- Add one service cost into an association list, summing with an existing
entry of the same name (Aggregator algorithm step 5). -/
def addService (m : List (String × ℚ)) (name : String) (cost : ℚ) :
    List (String × ℚ) :=
  match m with
  | [] => [(name, cost)]
  | (n, c) :: rest =>
      if n = name then (n, c + cost) :: rest else (n, c) :: addService rest name cost

/-- Merge one per-service cost map into the accumulator. -/
def mergeInto (m : List (String × ℚ)) (svcs : List (String × ℚ)) :
    List (String × ℚ) :=
  svcs.foldl (fun acc p => addService acc p.1 p.2) m

/-- Merge per-service cost maps across accounts by summing same-named
services (Aggregator algorithm step 5). -/
def mergeServices (maps : List (List (String × ℚ))) : List (String × ℚ) :=
  maps.foldl mergeInto []

/-- The ordering of the top-services table: descending by cost, and for
equal costs ascending by service name (Aggregator algorithm step 6). -/
def svcOrder (a b : String × ℚ) : Prop :=
  b.2 < a.2 ∨ (a.2 = b.2 ∧ a.1 ≤ b.1)

instance : DecidableRel svcOrder := fun a b => by
  unfold svcOrder; infer_instance

instance : IsTotal (String × ℚ) svcOrder where
  total a b := by
    rcases lt_trichotomy a.2 b.2 with h | h | h
    · exact Or.inr (Or.inl h)
    · rcases le_total a.1 b.1 with h1 | h1
      · exact Or.inl (Or.inr ⟨h, h1⟩)
      · exact Or.inr (Or.inr ⟨h.symm, h1⟩)
    · exact Or.inl (Or.inl h)

instance : IsTrans (String × ℚ) svcOrder where
  trans a b c hab hbc := by
    rcases hab with h1 | ⟨e1, n1⟩
    · rcases hbc with h2 | ⟨e2, _⟩
      · exact Or.inl (h2.trans h1)
      · exact Or.inl (e2 ▸ h1)
    · rcases hbc with h2 | ⟨e2, n2⟩
      · exact Or.inl (e1 ▸ h2)
      · exact Or.inr ⟨e1.trans e2, n1.trans n2⟩

/-- Sort merged services by svcOrder (Aggregator algorithm step 6). -/
def sortServices (l : List (String × ℚ)) : List (String × ℚ) :=
  List.insertionSort svcOrder l

/-- The summary entry built for one account (Aggregator algorithm step 7):
a succeeded account carries its identity and current total; a failed account
carries its reference, a null total and the failed flag. -/
def summaryOf (a : AccountConfig) (r : AccountResult) : AccountSummary :=
  match r with
  | .Ok idn cur _ =>
      { account_id := idn.account_id
        account_name := idn.account_name
        account_ref := a.account_ref
        total := some cur.total
        failed := false }
  | .Failed ref _ _ =>
      { account_id := ref
        account_name := ref
        account_ref := a.account_ref
        total := none
        failed := true }

/-- Modelled from the spec (section 4.4, steps 3 to 7): fold the collected
per-account results, given in configured order, into one Report. -/
def foldReport (results : List (AccountConfig × AccountResult)) (topN : ℕ) :
    Report :=
  let succ := succeededOf results
  let total_all := (succ.map fun s => s.2.1.total).sum
  let prev_total := (succ.map fun s => s.2.2.total).sum
  let delta := total_all - prev_total
  { total_all := total_all
    prev_total := prev_total
    delta := delta
    delta_pct := if prev_total = 0 then 0 else delta / prev_total * 100
    top_services := (sortServices (mergeServices (succ.map fun s => s.2.1.services))).take topN
    summaries := results.map fun pr => summaryOf pr.1 pr.2 }

/-- Modelled from the spec (section 4.4): the Aggregator runs one Account
Fetcher per configured account and folds all results into one Report. The
fetch argument stands for the Account Fetcher contract
fetch(AccountConfig) to AccountResult, which never raises past its own
boundary. -/
def buildReport (accounts : List AccountConfig)
    (fetch : AccountConfig → AccountResult) (topN : ℕ) : Report :=
  foldReport (accounts.map fun a => (a, fetch a)) topN

/-- Modelled from the spec (sections 4.4 and 5): fetchers complete in an
arbitrary order; the arrival stream lists account indices in completion
order, each paired with the result that fetcher produced. -/
def arrivalStream (accounts : List AccountConfig)
    (fetch : AccountConfig → AccountResult) (order : List ℕ) :
    List (ℕ × AccountResult) :=
  order.filterMap fun i => (accounts.get? i).map fun a => (i, fetch a)

/-- Look up the result of the fetcher for account index i in the arrival
stream collected at the join point. -/
def lookupResult (stream : List (ℕ × AccountResult)) (i : ℕ) :
    Option AccountResult :=
  (stream.find? fun p => p.1 == i).map Prod.snd

/-- Reassemble the per-account results in caller-supplied configuration
order from the completion-ordered arrival stream (Aggregator step 7). -/
def collectInConfigOrder (accounts : List AccountConfig)
    (stream : List (ℕ × AccountResult)) : List (AccountConfig × AccountResult) :=
  accounts.enum.filterMap fun p => (lookupResult stream p.1).map fun r => (p.2, r)

/-- Modelled from the spec (section 4.4): buildReport as seen through the
join point, with the fetch completion order made explicit. -/
def buildReportArrival (accounts : List AccountConfig)
    (fetch : AccountConfig → AccountResult) (order : List ℕ) (topN : ℕ) :
    Report :=
  foldReport (collectInConfigOrder accounts (arrivalStream accounts fetch order)) topN

/-- Sum of the costs recorded for one service name in one per-service map
(a name may occur at most once in a merged map, but raw provider maps are
not assumed deduplicated). -/
def serviceAmount (svcs : List (String × ℚ)) (name : String) : ℚ :=
  ((svcs.filter fun p => p.1 = name).map Prod.snd).sum

/-- The cost the Report should attribute to one service name: the sum of
that name over the current-period maps of the succeeded accounts. -/
def serviceTotal (accounts : List AccountConfig)
    (fetch : AccountConfig → AccountResult) (name : String) : ℚ :=
  ((succeededOf (accounts.map fun a => (a, fetch a))).map fun s =>
    serviceAmount s.2.1.services name).sum

/-- Sum of the cost column of a per-service list. -/
def valuesSum (l : List (String × ℚ)) : ℚ :=
  (l.map Prod.snd).sum

/-! Report Service (section 4.5), modelled from the spec. -/

/-- Modelled from the spec (section 4.5): authorization mode selected at
process configuration time. -/
inductive AuthMode
  | noAuth
  | headerPresence
deriving DecidableEq, Repr

/-- Modelled from the spec (section 4.5): the auth context of one request
carries the trust header value when the header is present. -/
structure AuthContext where
  trustHeader : Option String
deriving DecidableEq, Repr

/-- Modelled from the spec (section 7): AuthError taxonomy. -/
inductive AuthError
  | Unauthorized
deriving DecidableEq, Repr

/-- Modelled from the spec (section 4.5): a request is authorized in noAuth
mode always, and in headerPresence mode iff the trust header is present and
non-empty. -/
def authorized (mode : AuthMode) (ctx : AuthContext) : Bool :=
  match mode with
  | .noAuth => true
  | .headerPresence =>
      match ctx.trustHeader with
      | some v => !(v = "")
      | none => false

/-- Modelled from the spec (sections 4.3 and 5): one Account Fetcher issues
up to three provider calls (identity, current period, previous period) once
credentials resolve; one full Aggregator run issues them for every account.
The count is an upper-bound bookkeeping device for the call counter of the
section 8 auth scenario. -/
def aggregatorProviderCalls (accounts : List AccountConfig) : ℕ :=
  3 * accounts.length

/-- Modelled from the spec (section 4.5): handleReportRequest checks the
authorization gate first; an authorized request triggers one full
Aggregator run, an unauthorized one is rejected with Unauthorized before
any Aggregator work begins. The second component threads the provider-call
counter of the section 8 scenario. -/
def handleReportRequest (mode : AuthMode) (ctx : AuthContext)
    (accounts : List AccountConfig) (fetch : AccountConfig → AccountResult)
    (topN : ℕ) (calls : ℕ) : Except AuthError Report × ℕ :=
  if authorized mode ctx then
    (Except.ok (buildReport accounts fetch topN),
     calls + aggregatorProviderCalls accounts)
  else
    (Except.error AuthError.Unauthorized, calls)

/-! UI layer, embedded from ui/src/api.js and the application component. -/

/-- Embedded from ui/src/api.js: the default API base constant. -/
def DEFAULT_API_BASE : String := "http://127.0.0.1:8080"

/-- Embedded from ui/src/api.js: getApiBase returns the API_BASE
environment value when it is present and truthy (a present empty string is
falsy under the JavaScript or-operator), else the default. -/
def getApiBase (envApiBase : Option String) : String :=
  match envApiBase with
  | some s => if s = "" then DEFAULT_API_BASE else s
  | none => DEFAULT_API_BASE

/-- Embedded from ui/src/api.js: the regex replace of one trailing slash
(the pattern matches a single slash anchored at the end, replaced once),
modelled over the character list of the string. -/
def stripTrailingSlash (s : String) : String :=
  if s.data.getLast? = some '/' then String.mk s.data.dropLast else s

/-- The URL fetchAwsReport requests: the base with a single trailing slash
removed, followed by the report path. -/
def requestUrl (envApiBase : Option String) : String :=
  stripTrailingSlash (getApiBase envApiBase) ++ "/report/aws"

/-- An HTTP response as api.js consumes it: the ok flag, the numeric
status, and the parsed JSON body. -/
structure Response (α : Type) where
  ok : Bool
  status : ℕ
  json : α

/-- Embedded from ui/src/api.js: fetchAwsReport requests the report URL,
throws when the response ok flag is false, and otherwise returns the parsed
JSON body. The httpFetch argument stands for the browser fetch. -/
def fetchAwsReport {α : Type} (httpFetch : String → Response α)
    (envApiBase : Option String) : Except String α :=
  let res := httpFetch (requestUrl envApiBase)
  if !res.ok then
    Except.error ("Request failed: " ++ toString res.status)
  else
    Except.ok res.json

/-- A JavaScript value as it reaches formatUsd from the report JSON. -/
inductive JsValue
  | num (q : ℚ)
  | str (s : String)
  | nullV
  | undefinedV
  | boolV (b : Bool)
deriving DecidableEq, Repr

/-- Whether a JavaScript value has typeof number. -/
def JsValue.isNumber : JsValue → Bool
  | .num _ => true
  | _ => false

/-- Embedded from the application component: formatUsd returns a dash for
every value whose typeof is not number, and otherwise formats the number
with the currency formatter. The formatter argument stands for the
Intl.NumberFormat instance. -/
def formatUsd (formatter : ℚ → String) (value : JsValue) : String :=
  match value with
  | .num q => formatter q
  | _ => "-"

/-! Basic lemmas about the partition of results into succeeded and failed. -/

lemma succeededOf_nil : succeededOf [] = [] := rfl

lemma succeededOf_cons_ok (a : AccountConfig) (idn : AccountIdentity)
    (cur prev : PeriodCost) (rest : List (AccountConfig × AccountResult)) :
    succeededOf ((a, AccountResult.Ok idn cur prev) :: rest)
      = (idn, cur, prev) :: succeededOf rest := rfl

lemma succeededOf_cons_failed (a : AccountConfig) (ref : String)
    (k : ErrorKind) (msg : String) (rest : List (AccountConfig × AccountResult)) :
    succeededOf ((a, AccountResult.Failed ref k msg) :: rest) = succeededOf rest := rfl

/-- When every configured account fails, the partition yields no succeeded
results at all. -/
lemma succeededOf_eq_nil_of_all_failed (accounts : List AccountConfig)
    (fetch : AccountConfig → AccountResult)
    (h : ∀ a ∈ accounts, (fetch a).isFailed = true) :
    succeededOf (accounts.map fun a => (a, fetch a)) = [] := by
  induction accounts with
  | nil => rfl
  | cons a as ih =>
      have ha := h a (List.mem_cons_self a as)
      cases hfa : fetch a with
      | Ok idn cur prev => rw [hfa] at ha; simp [AccountResult.isFailed] at ha
      | Failed ref k msg =>
          simp only [List.map_cons, hfa, succeededOf_cons_failed]
          exact ih fun b hb => h b (List.mem_cons_of_mem a hb)

lemma mergeServices_nil : mergeServices [] = [] := rfl

lemma sortServices_nil : sortServices [] = [] := rfl

/-- Dropping the failed accounts from the configuration does not change the
succeeded partition. -/
lemma succeededOf_filter_not_failed (accounts : List AccountConfig)
    (fetch : AccountConfig → AccountResult) :
    succeededOf ((accounts.filter fun a => !(fetch a).isFailed).map fun a => (a, fetch a))
      = succeededOf (accounts.map fun a => (a, fetch a)) := by
  induction accounts with
  | nil => rfl
  | cons a as ih =>
      cases hfa : fetch a with
      | Ok idn cur prev =>
          have hok : (AccountResult.Ok idn cur prev).isFailed = false := rfl
          simp [List.filter_cons, hfa, hok, succeededOf_cons_ok, ih]
      | Failed ref k msg =>
          have hfl : (AccountResult.Failed ref k msg).isFailed = true := rfl
          simp [List.filter_cons, hfa, hfl, succeededOf_cons_failed, ih]

/-- C1. For every list of AccountConfigs, buildReport returns a Report by
construction (the function is total, so the whole never fails); when every
account fails, total_all, prev_total, delta and delta_pct are 0,
top_services is empty, and every summary carries the failed flag. -/
theorem buildReport_all_failed (accounts : List AccountConfig)
    (fetch : AccountConfig → AccountResult) (topN : ℕ)
    (h : ∀ a ∈ accounts, (fetch a).isFailed = true) :
    (buildReport accounts fetch topN).total_all = 0
    ∧ (buildReport accounts fetch topN).prev_total = 0
    ∧ (buildReport accounts fetch topN).delta = 0
    ∧ (buildReport accounts fetch topN).delta_pct = 0
    ∧ (buildReport accounts fetch topN).top_services = []
    ∧ ∀ s ∈ (buildReport accounts fetch topN).summaries, s.failed = true := by
  have hnil := succeededOf_eq_nil_of_all_failed accounts fetch h
  refine ⟨?_, ?_, ?_, ?_, ?_, ?_⟩
  · simp [buildReport, foldReport, hnil]
  · simp [buildReport, foldReport, hnil]
  · simp [buildReport, foldReport, hnil]
  · simp [buildReport, foldReport, hnil]
  · simp [buildReport, foldReport, hnil, mergeServices_nil, sortServices_nil]
  · intro s hs
    simp only [buildReport, foldReport, List.map_map] at hs
    rcases List.mem_map.mp hs with ⟨a, ha, hsa⟩
    have hfa := h a ha
    cases hres : fetch a with
    | Ok idn cur prev => rw [hres] at hfa; simp [AccountResult.isFailed] at hfa
    | Failed ref k msg =>
        subst hsa
        simp [Function.comp, hres, summaryOf]

/-- C1 witness: both accounts of the two-account scenario fail, and the
Report nevertheless comes out with zeroed aggregates, an empty top-services
table and every summary flagged failed. -/
theorem buildReport_all_failed_witness :
    (buildReport
        [⟨"a", .namedProfile "prod"⟩, ⟨"b", .namedProfile "staging"⟩]
        (fun c => .Failed c.account_ref .AccessDenied "denied") 10).total_all = 0
    ∧ (buildReport
        [⟨"a", .namedProfile "prod"⟩, ⟨"b", .namedProfile "staging"⟩]
        (fun c => .Failed c.account_ref .AccessDenied "denied") 10).top_services = []
    ∧ ∀ s ∈ (buildReport
        [⟨"a", .namedProfile "prod"⟩, ⟨"b", .namedProfile "staging"⟩]
        (fun c => .Failed c.account_ref .AccessDenied "denied") 10).summaries,
        s.failed = true := by
  have h := buildReport_all_failed
    [⟨"a", .namedProfile "prod"⟩, ⟨"b", .namedProfile "staging"⟩]
    (fun c => .Failed c.account_ref .AccessDenied "denied") 10
    (by intro a _; rfl)
  exact ⟨h.1, h.2.2.2.2.1, h.2.2.2.2.2⟩

/-- C2. A failed account contributes nothing to total_all, prev_total or
top_services: the Report aggregates are unchanged when the failed accounts
are removed from the configuration, so only succeeded accounts are summed
and merged. -/
theorem buildReport_failed_contribute_nothing (accounts : List AccountConfig)
    (fetch : AccountConfig → AccountResult) (topN : ℕ) :
    (buildReport accounts fetch topN).total_all
        = (buildReport (accounts.filter fun a => !(fetch a).isFailed) fetch topN).total_all
    ∧ (buildReport accounts fetch topN).prev_total
        = (buildReport (accounts.filter fun a => !(fetch a).isFailed) fetch topN).prev_total
    ∧ (buildReport accounts fetch topN).top_services
        = (buildReport (accounts.filter fun a => !(fetch a).isFailed) fetch topN).top_services := by
  have hsucc := succeededOf_filter_not_failed accounts fetch
  refine ⟨?_, ?_, ?_⟩ <;> simp [buildReport, foldReport, hsucc]

/-- C3. In every Report built by buildReport, delta equals total_all minus
prev_total exactly. -/
theorem buildReport_delta (accounts : List AccountConfig)
    (fetch : AccountConfig → AccountResult) (topN : ℕ) :
    (buildReport accounts fetch topN).delta
      = (buildReport accounts fetch topN).total_all
        - (buildReport accounts fetch topN).prev_total := rfl

/-- C4. In every Report built by buildReport, delta_pct is delta divided by
prev_total times 100 when prev_total is nonzero and exactly 0 when
prev_total is 0; over the rational cost model the value is always a plain
rational, so no NaN or Infinity can arise and no division by zero is
performed. -/
theorem buildReport_delta_pct (accounts : List AccountConfig)
    (fetch : AccountConfig → AccountResult) (topN : ℕ) :
    (buildReport accounts fetch topN).delta_pct
      = if (buildReport accounts fetch topN).prev_total = 0 then 0
        else (buildReport accounts fetch topN).delta
              / (buildReport accounts fetch topN).prev_total * 100 := rfl

/-! Lemmas about the per-service merge (Aggregator steps 5 and 6). -/

lemma serviceAmount_nil (name : String) : serviceAmount [] name = 0 := rfl

lemma serviceAmount_cons (p : String × ℚ) (ps : List (String × ℚ)) (name : String) :
    serviceAmount (p :: ps) name
      = (if p.1 = name then p.2 else 0) + serviceAmount ps name := by
  by_cases h : p.1 = name <;> simp [serviceAmount, List.filter_cons, h]

/-- Adding one service cost raises the amount recorded for exactly that
service name and leaves every other name unchanged. -/
lemma serviceAmount_addService (m : List (String × ℚ)) (n : String) (c : ℚ)
    (name : String) :
    serviceAmount (addService m n c) name
      = serviceAmount m name + (if n = name then c else 0) := by
  induction m with
  | nil =>
      by_cases h : n = name <;>
        simp [addService, serviceAmount_cons, serviceAmount_nil, h]
  | cons p ps ih =>
      obtain ⟨pn, pc⟩ := p
      by_cases hpn : pn = n
      · subst hpn
        have e : addService ((pn, pc) :: ps) pn c = (pn, pc + c) :: ps := by
          simp [addService]
        rw [e, serviceAmount_cons, serviceAmount_cons]
        by_cases h : pn = name <;> simp only [h, if_pos, if_neg, ite_true, ite_false] <;> ring
      · have e : addService ((pn, pc) :: ps) n c = (pn, pc) :: addService ps n c := by
          simp [addService, hpn]
        rw [e, serviceAmount_cons, serviceAmount_cons, ih]
        ring

lemma mergeInto_cons (m : List (String × ℚ)) (p : String × ℚ)
    (ps : List (String × ℚ)) :
    mergeInto m (p :: ps) = mergeInto (addService m p.1 p.2) ps := rfl

lemma serviceAmount_mergeInto (svcs : List (String × ℚ))
    (m : List (String × ℚ)) (name : String) :
    serviceAmount (mergeInto m svcs) name
      = serviceAmount m name + serviceAmount svcs name := by
  induction svcs generalizing m with
  | nil => simp [mergeInto, serviceAmount_nil]
  | cons p ps ih =>
      rw [mergeInto_cons, ih, serviceAmount_addService, serviceAmount_cons]
      ring

/-- The merged map records, for every service name, the sum of that name
over all the input maps. -/
lemma serviceAmount_mergeServices (maps : List (List (String × ℚ)))
    (name : String) :
    serviceAmount (mergeServices maps) name
      = (maps.map fun svcs => serviceAmount svcs name).sum := by
  have h : ∀ acc, serviceAmount (maps.foldl mergeInto acc) name
      = serviceAmount acc name + (maps.map fun svcs => serviceAmount svcs name).sum := by
    induction maps with
    | nil => intro acc; simp
    | cons mp mps ih =>
        intro acc
        rw [List.foldl_cons, ih, serviceAmount_mergeInto, List.map_cons, List.sum_cons]
        ring
  simpa [mergeServices, serviceAmount_nil] using h []

/-- The service names of a per-service map. -/
def svcKeys (m : List (String × ℚ)) : List String := m.map Prod.fst

lemma svcKeys_addService (m : List (String × ℚ)) (n : String) (c : ℚ) :
    svcKeys (addService m n c)
      = if n ∈ svcKeys m then svcKeys m else svcKeys m ++ [n] := by
  induction m with
  | nil => simp [addService, svcKeys]
  | cons p ps ih =>
      obtain ⟨pn, pc⟩ := p
      by_cases hpn : pn = n
      · subst hpn
        have e : addService ((pn, pc) :: ps) pn c = (pn, pc + c) :: ps := by
          simp [addService]
        have hmem : pn ∈ svcKeys ((pn, pc) :: ps) := by simp [svcKeys]
        rw [e, if_pos hmem]
        simp [svcKeys]
      · have e : addService ((pn, pc) :: ps) n c = (pn, pc) :: addService ps n c := by
          simp [addService, hpn]
        have hmemiff : (n ∈ svcKeys ((pn, pc) :: ps)) ↔ n ∈ svcKeys ps := by
          simp [svcKeys, Ne.symm hpn]
        by_cases hmem : n ∈ svcKeys ps
        · rw [e, if_pos (hmemiff.mpr hmem)]
          have : svcKeys ((pn, pc) :: addService ps n c)
              = pn :: svcKeys (addService ps n c) := rfl
          rw [this, ih, if_pos hmem]
          rfl
        · rw [e, if_neg (fun hh => hmem (hmemiff.mp hh))]
          have : svcKeys ((pn, pc) :: addService ps n c)
              = pn :: svcKeys (addService ps n c) := rfl
          rw [this, ih, if_neg hmem]
          rfl

lemma nodup_svcKeys_addService (m : List (String × ℚ)) (n : String) (c : ℚ)
    (h : (svcKeys m).Nodup) : (svcKeys (addService m n c)).Nodup := by
  rw [svcKeys_addService]
  by_cases hmem : n ∈ svcKeys m
  · simpa [hmem] using h
  · simpa [hmem, List.nodup_append] using h

lemma nodup_svcKeys_mergeInto (svcs m : List (String × ℚ))
    (h : (svcKeys m).Nodup) : (svcKeys (mergeInto m svcs)).Nodup := by
  induction svcs generalizing m with
  | nil => exact h
  | cons p ps ih => exact mergeInto_cons m p ps ▸ ih _ (nodup_svcKeys_addService m p.1 p.2 h)

/-- The merged map never repeats a service name. -/
lemma nodup_svcKeys_mergeServices (maps : List (List (String × ℚ))) :
    (svcKeys (mergeServices maps)).Nodup := by
  have h : ∀ acc, (svcKeys acc).Nodup → (svcKeys (maps.foldl mergeInto acc)).Nodup := by
    induction maps with
    | nil => intro acc hacc; exact hacc
    | cons mp mps ih => intro acc hacc; exact ih _ (nodup_svcKeys_mergeInto mp acc hacc)
  exact h [] (by simp [svcKeys])

lemma serviceAmount_eq_zero_of_not_mem (m : List (String × ℚ)) (name : String)
    (h : name ∉ svcKeys m) : serviceAmount m name = 0 := by
  induction m with
  | nil => rfl
  | cons p ps ih =>
      have h1 : p.1 ≠ name := fun e => h (by simp [svcKeys, e])
      have h2 : name ∉ svcKeys ps := fun hm => h (by simp [svcKeys] at hm ⊢; right; exact hm)
      rw [serviceAmount_cons, if_neg h1, ih h2, zero_add]

/-- In a map without repeated names, every entry carries exactly the amount
recorded for its name. -/
lemma serviceAmount_of_mem (m : List (String × ℚ)) (p : String × ℚ)
    (hp : p ∈ m) (hnd : (svcKeys m).Nodup) : serviceAmount m p.1 = p.2 := by
  induction m with
  | nil => cases hp
  | cons q qs ih =>
      have hndc : (q.1 :: svcKeys qs).Nodup := hnd
      have hnd0 : q.1 ∉ svcKeys qs ∧ (svcKeys qs).Nodup := List.nodup_cons.mp hndc
      rcases List.mem_cons.mp hp with rfl | hmem
      · rw [serviceAmount_cons, if_pos rfl,
          serviceAmount_eq_zero_of_not_mem qs p.1 hnd0.1, add_zero]
      · have hne : q.1 ≠ p.1 := by
          intro e
          have hk : p.1 ∈ svcKeys qs := by
            simpa [svcKeys] using List.mem_map_of_mem Prod.fst hmem
          exact hnd0.1 (e ▸ hk)
        rw [serviceAmount_cons, if_neg hne, ih hmem hnd0.2, zero_add]

/-- The strict ordering the finished top-services table satisfies:
strictly descending by cost, with equal costs strictly ascending by name. -/
def svcStrict (a b : String × ℚ) : Prop :=
  b.2 < a.2 ∨ (a.2 = b.2 ∧ a.1 < b.1)

/-- A list sorted by the merge ordering whose names never repeat is
pairwise strictly ordered. -/
lemma pairwise_strict_of_sorted_nodup (l : List (String × ℚ))
    (hs : List.Sorted svcOrder l) (hnd : (svcKeys l).Nodup) :
    List.Pairwise svcStrict l := by
  have hne : List.Pairwise (fun a b : String × ℚ => a.1 ≠ b.1) l := by
    simpa [svcKeys, List.Nodup, List.pairwise_map] using hnd
  refine (hs.and hne).imp ?_
  rintro a b ⟨hab, hne1⟩
  rcases hab with h | ⟨e, hle⟩
  · exact Or.inl h
  · exact Or.inr ⟨e, lt_of_le_of_ne hle hne1⟩

/-- C5. In every Report built by buildReport, top_services is sorted
strictly descending by cost with equal costs ordered ascending by name, its
length is at most the configured N, and every entry carries exactly the sum
of its service name over the current-period maps of the succeeded
accounts. -/
theorem buildReport_top_services (accounts : List AccountConfig)
    (fetch : AccountConfig → AccountResult) (topN : ℕ) :
    List.Pairwise svcStrict (buildReport accounts fetch topN).top_services
    ∧ (buildReport accounts fetch topN).top_services.length ≤ topN
    ∧ ∀ p ∈ (buildReport accounts fetch topN).top_services,
        p.2 = serviceTotal accounts fetch p.1 := by
  have hts : (buildReport accounts fetch topN).top_services
      = (sortServices (mergeServices
          ((succeededOf (accounts.map fun a => (a, fetch a))).map
            fun s => s.2.1.services))).take topN := rfl
  set M := mergeServices ((succeededOf (accounts.map fun a => (a, fetch a))).map
    fun s => s.2.1.services) with hM
  have hperm : List.Perm (sortServices M) M := List.perm_insertionSort svcOrder M
  have hndM : (svcKeys M).Nodup := nodup_svcKeys_mergeServices _
  have hndS : (svcKeys (sortServices M)).Nodup :=
    (List.Perm.nodup_iff (hperm.map Prod.fst)).mpr hndM
  have hsorted : List.Sorted svcOrder (sortServices M) :=
    List.sorted_insertionSort svcOrder M
  have hpair : List.Pairwise svcStrict (sortServices M) :=
    pairwise_strict_of_sorted_nodup _ hsorted hndS
  refine ⟨?_, ?_, ?_⟩
  · rw [hts]
    exact hpair.sublist (List.take_sublist topN _)
  · rw [hts]
    exact List.length_take_le topN _
  · intro p hp
    rw [hts] at hp
    have hp1 : p ∈ sortServices M := (List.take_sublist topN _).subset hp
    have hp2 : p ∈ M := hperm.subset hp1
    have hv := serviceAmount_of_mem M p hp2 hndM
    rw [← hv, hM, serviceAmount_mergeServices, serviceTotal, List.map_map]
    rfl

/-- C5 witness: in the two-account scenario the top-services table of the
built Report is strictly ordered, fits in the configured ten slots, and its
first entry carries the per-service sum of the succeeded account. -/
theorem buildReport_top_services_witness :
    (buildReport
        [⟨"a", .namedProfile "prod"⟩, ⟨"b", .namedProfile "staging"⟩]
        (fun c => if c.account_ref = "a"
          then .Ok ⟨"111", "A"⟩ ⟨[("EC2", 60), ("S3", 40)], 100⟩ ⟨[("EC2", 50), ("S3", 30)], 80⟩
          else .Failed "b" .AccessDenied "denied") 10).top_services.length ≤ 10
    ∧ (60 : ℚ) = serviceTotal
        [⟨"a", .namedProfile "prod"⟩, ⟨"b", .namedProfile "staging"⟩]
        (fun c => if c.account_ref = "a"
          then .Ok ⟨"111", "A"⟩ ⟨[("EC2", 60), ("S3", 40)], 100⟩ ⟨[("EC2", 50), ("S3", 30)], 80⟩
          else .Failed "b" .AccessDenied "denied") "EC2" := by
  have h := buildReport_top_services
    [⟨"a", .namedProfile "prod"⟩, ⟨"b", .namedProfile "staging"⟩]
    (fun c => if c.account_ref = "a"
      then .Ok ⟨"111", "A"⟩ ⟨[("EC2", 60), ("S3", 40)], 100⟩ ⟨[("EC2", 50), ("S3", 30)], 80⟩
      else .Failed "b" .AccessDenied "denied") 10
  refine ⟨h.2.1, ?_⟩
  have hmem : (("EC2", (60 : ℚ))) ∈ (buildReport
      [⟨"a", .namedProfile "prod"⟩, ⟨"b", .namedProfile "staging"⟩]
      (fun c => if c.account_ref = "a"
        then .Ok ⟨"111", "A"⟩ ⟨[("EC2", 60), ("S3", 40)], 100⟩ ⟨[("EC2", 50), ("S3", 30)], 80⟩
        else .Failed "b" .AccessDenied "denied") 10).top_services := by
    simp [buildReport, foldReport, succeededOf, mergeServices, mergeInto, addService,
      sortServices, List.insertionSort, List.orderedInsert, svcOrder]
    try norm_num
  exact h.2.2 ("EC2", 60) hmem

/-! Lemmas about the total value of a per-service map, for the top-N
against total reconciliation. -/

lemma valuesSum_nil : valuesSum [] = 0 := rfl

lemma valuesSum_cons (p : String × ℚ) (ps : List (String × ℚ)) :
    valuesSum (p :: ps) = p.2 + valuesSum ps := by
  simp [valuesSum]

lemma valuesSum_addService (m : List (String × ℚ)) (n : String) (c : ℚ) :
    valuesSum (addService m n c) = valuesSum m + c := by
  induction m with
  | nil => simp [addService, valuesSum]
  | cons p ps ih =>
      obtain ⟨pn, pc⟩ := p
      by_cases hpn : pn = n
      · subst hpn
        have e : addService ((pn, pc) :: ps) pn c = (pn, pc + c) :: ps := by
          simp [addService]
        rw [e, valuesSum_cons, valuesSum_cons]
        ring
      · have e : addService ((pn, pc) :: ps) n c = (pn, pc) :: addService ps n c := by
          simp [addService, hpn]
        rw [e, valuesSum_cons, valuesSum_cons, ih]
        ring

lemma valuesSum_mergeInto (svcs m : List (String × ℚ)) :
    valuesSum (mergeInto m svcs) = valuesSum m + valuesSum svcs := by
  induction svcs generalizing m with
  | nil => simp [mergeInto, valuesSum]
  | cons p ps ih =>
      rw [mergeInto_cons, ih, valuesSum_addService, valuesSum_cons]
      ring

/-- Merging never loses or invents cost: the merged map sums to the sum of
the input maps. -/
lemma valuesSum_mergeServices (maps : List (List (String × ℚ))) :
    valuesSum (mergeServices maps) = (maps.map valuesSum).sum := by
  have h : ∀ acc, valuesSum (maps.foldl mergeInto acc)
      = valuesSum acc + (maps.map valuesSum).sum := by
    induction maps with
    | nil => intro acc; simp
    | cons mp mps ih =>
        intro acc
        rw [List.foldl_cons, ih, valuesSum_mergeInto, List.map_cons, List.sum_cons]
        ring
  simpa [mergeServices, valuesSum_nil] using h []

lemma addService_nonneg (m : List (String × ℚ)) (n : String) (c : ℚ)
    (hm : ∀ p ∈ m, 0 ≤ p.2) (hc : 0 ≤ c) :
    ∀ p ∈ addService m n c, 0 ≤ p.2 := by
  induction m with
  | nil =>
      intro p hp
      simp [addService] at hp
      rw [hp]
      exact hc
  | cons q qs ih =>
      obtain ⟨qn, qc⟩ := q
      by_cases hqn : qn = n
      · subst hqn
        have e : addService ((qn, qc) :: qs) qn c = (qn, qc + c) :: qs := by
          simp [addService]
        rw [e]
        intro p hp
        rcases List.mem_cons.mp hp with rfl | hp2
        · exact add_nonneg (hm (qn, qc) (List.mem_cons_self _ _)) hc
        · exact hm p (List.mem_cons_of_mem _ hp2)
      · have e : addService ((qn, qc) :: qs) n c = (qn, qc) :: addService qs n c := by
          simp [addService, hqn]
        rw [e]
        intro p hp
        rcases List.mem_cons.mp hp with rfl | hp2
        · exact hm (qn, qc) (List.mem_cons_self _ _)
        · exact ih (fun q hq => hm q (List.mem_cons_of_mem _ hq)) p hp2

lemma mergeInto_nonneg (svcs m : List (String × ℚ))
    (hm : ∀ p ∈ m, 0 ≤ p.2) (hs : ∀ p ∈ svcs, 0 ≤ p.2) :
    ∀ p ∈ mergeInto m svcs, 0 ≤ p.2 := by
  induction svcs generalizing m with
  | nil => exact hm
  | cons q qs ih =>
      rw [mergeInto_cons]
      exact ih _
        (addService_nonneg m q.1 q.2 hm (hs q (List.mem_cons_self _ _)))
        (fun p hp => hs p (List.mem_cons_of_mem _ hp))

lemma mergeServices_nonneg (maps : List (List (String × ℚ)))
    (h : ∀ mp ∈ maps, ∀ p ∈ mp, 0 ≤ p.2) :
    ∀ p ∈ mergeServices maps, 0 ≤ p.2 := by
  have hgen : ∀ acc, (∀ p ∈ acc, 0 ≤ p.2) →
      ∀ p ∈ maps.foldl mergeInto acc, 0 ≤ p.2 := by
    induction maps with
    | nil => intro acc hacc; exact hacc
    | cons mp mps ih =>
        intro acc hacc
        rw [List.foldl_cons]
        exact ih (fun mq hmq => h mq (List.mem_cons_of_mem _ hmq)) _
          (mergeInto_nonneg mp acc hacc (h mp (List.mem_cons_self _ _)))
  exact hgen [] (by intro p hp; cases hp)

/-- Truncating a map of nonnegative costs can only lower its total. -/
lemma valuesSum_take_le (l : List (String × ℚ)) (n : ℕ)
    (h : ∀ p ∈ l, 0 ≤ p.2) : valuesSum (l.take n) ≤ valuesSum l := by
  have hsplit : valuesSum (l.take n) + valuesSum (l.drop n) = valuesSum l := by
    rw [← List.take_append_drop n l]
    simp [valuesSum, List.take_append_drop]
  have hdrop : 0 ≤ valuesSum (l.drop n) := by
    apply List.sum_nonneg
    intro x hx
    rcases List.mem_map.mp hx with ⟨p, hp, rfl⟩
    exact h p ((List.drop_sublist n l).subset hp)
  linarith

/-- A triple is a succeeded result of a run exactly when some configured
account fetched it. -/
lemma mem_succeededOf (accounts : List AccountConfig)
    (fetch : AccountConfig → AccountResult)
    (s : AccountIdentity × PeriodCost × PeriodCost) :
    s ∈ succeededOf (accounts.map fun a => (a, fetch a)) ↔
      ∃ a ∈ accounts, fetch a = AccountResult.Ok s.1 s.2.1 s.2.2 := by
  induction accounts with
  | nil => simp [succeededOf]
  | cons a as ih =>
      cases hfa : fetch a with
      | Ok idn cur prev =>
          rw [List.map_cons, hfa, succeededOf_cons_ok]
          constructor
          · intro h
            rcases List.mem_cons.mp h with rfl | hmem
            · exact ⟨a, List.mem_cons_self _ _, by rw [hfa]⟩
            · rcases ih.mp hmem with ⟨b, hb, hfb⟩
              exact ⟨b, List.mem_cons_of_mem _ hb, hfb⟩
          · rintro ⟨b, hb, hfb⟩
            rcases List.mem_cons.mp hb with rfl | hb2
            · rw [hfa] at hfb
              injection hfb with e1 e2 e3
              exact List.mem_cons.mpr (Or.inl (by rw [e1, e2, e3]))
            · exact List.mem_cons_of_mem _ (ih.mpr ⟨b, hb2, hfb⟩)
      | Failed ref k msg =>
          rw [List.map_cons, hfa, succeededOf_cons_failed]
          constructor
          · intro h
            rcases ih.mp h with ⟨b, hb, hfb⟩
            exact ⟨b, List.mem_cons_of_mem _ hb, hfb⟩
          · rintro ⟨b, hb, hfb⟩
            rcases List.mem_cons.mp hb with rfl | hb2
            · rw [hfa] at hfb
              cases hfb
            · exact ih.mpr ⟨b, hb2, hfb⟩

/-- The account of the C8 counterexample. -/
def negCostAccount : AccountConfig := ⟨"neg", .namedProfile "p"⟩

/-- The fetch of the C8 counterexample: the provider reports a service
credit, a negative cost entry, while the period total of 5 still equals the
sum of the per-service costs, as the data-model invariant asks. -/
def negCostFetch : AccountConfig → AccountResult := fun _ =>
  .Ok ⟨"999", "neg"⟩ ⟨[("EC2", 10), ("S3", -5)], 5⟩ ⟨[], 0⟩

/-- C8 counterexample: with one succeeded account whose current period
holds a 10 cost and a -5 credit (total 5) and top-N of 1, the single kept
top-services entry sums to 10, which exceeds total_all = 5; the claim as
stated is false for this Report. -/
theorem topServices_sum_exceeds_total :
    ¬ (valuesSum (buildReport [negCostAccount] negCostFetch 1).top_services
        ≤ (buildReport [negCostAccount] negCostFetch 1).total_all) := by
  have e : (buildReport [negCostAccount] negCostFetch 1).top_services
      = [("EC2", 10)] := by
    simp [buildReport, foldReport, succeededOf, negCostFetch, negCostAccount,
      mergeServices, mergeInto, addService, sortServices, List.insertionSort,
      List.orderedInsert, svcOrder]
    norm_num
  have e2 : (buildReport [negCostAccount] negCostFetch 1).total_all = 5 := by
    simp [buildReport, foldReport, succeededOf, negCostFetch, negCostAccount]
  rw [e, e2]
  simp [valuesSum]
  norm_num

/-- C8 amended. When every succeeded current-period map carries only
nonnegative per-service costs and its scalar total equals the sum of its
per-service costs, the costs listed in top_services sum to at most
total_all. -/
theorem buildReport_top_sum_le_total (accounts : List AccountConfig)
    (fetch : AccountConfig → AccountResult) (topN : ℕ)
    (hinv : ∀ a ∈ accounts, ∀ idn cur prev,
        fetch a = AccountResult.Ok idn cur prev →
        cur.total = valuesSum cur.services ∧ ∀ p ∈ cur.services, 0 ≤ p.2) :
    valuesSum (buildReport accounts fetch topN).top_services
      ≤ (buildReport accounts fetch topN).total_all := by
  have hts : (buildReport accounts fetch topN).top_services
      = (sortServices (mergeServices
          ((succeededOf (accounts.map fun a => (a, fetch a))).map
            fun s => s.2.1.services))).take topN := rfl
  have hta : (buildReport accounts fetch topN).total_all
      = ((succeededOf (accounts.map fun a => (a, fetch a))).map
          fun s => s.2.1.total).sum := rfl
  set succ := succeededOf (accounts.map fun a => (a, fetch a)) with hsucc
  set M := mergeServices (succ.map fun s => s.2.1.services) with hM
  have hmapsnn : ∀ mp ∈ succ.map (fun s => s.2.1.services), ∀ p ∈ mp, 0 ≤ p.2 := by
    intro mp hmp p hp
    rcases List.mem_map.mp hmp with ⟨s, hs, rfl⟩
    rcases (mem_succeededOf accounts fetch s).mp (hsucc ▸ hs) with ⟨a, ha, hfa⟩
    exact (hinv a ha s.1 s.2.1 s.2.2 hfa).2 p hp
  have hMnn : ∀ p ∈ M, 0 ≤ p.2 := mergeServices_nonneg _ hmapsnn
  have hperm : List.Perm (sortServices M) M := List.perm_insertionSort svcOrder M
  have hSnn : ∀ p ∈ sortServices M, 0 ≤ p.2 := fun p hp => hMnn p (hperm.subset hp)
  have h1 : valuesSum ((sortServices M).take topN) ≤ valuesSum (sortServices M) :=
    valuesSum_take_le _ topN hSnn
  have h2 : valuesSum (sortServices M) = valuesSum M :=
    (hperm.map Prod.snd).sum_eq
  have h3 : valuesSum M = (succ.map fun s => valuesSum s.2.1.services).sum := by
    rw [hM, valuesSum_mergeServices, List.map_map]
    rfl
  have h4 : (succ.map fun s => valuesSum s.2.1.services).sum
      = (succ.map fun s => s.2.1.total).sum := by
    have hcongr : ∀ s ∈ succ, valuesSum s.2.1.services = s.2.1.total := by
      intro s hs
      rcases (mem_succeededOf accounts fetch s).mp (hsucc ▸ hs) with ⟨a, ha, hfa⟩
      exact ((hinv a ha s.1 s.2.1 s.2.2 hfa).1).symm
    exact congrArg List.sum (List.map_congr_left hcongr)
  rw [hts, hta]
  calc valuesSum ((sortServices M).take topN)
      ≤ valuesSum (sortServices M) := h1
    _ = valuesSum M := h2
    _ = (succ.map fun s => valuesSum s.2.1.services).sum := h3
    _ = (succ.map fun s => s.2.1.total).sum := h4

/-- C8 amended witness: the two-account scenario satisfies the invariant
hypotheses, and the top-services costs of its Report sum to at most
total_all. -/
theorem buildReport_top_sum_le_total_witness :
    valuesSum (buildReport
        [⟨"a", .namedProfile "prod"⟩, ⟨"b", .namedProfile "staging"⟩]
        (fun c => if c.account_ref = "a"
          then .Ok ⟨"111", "A"⟩ ⟨[("EC2", 60), ("S3", 40)], 100⟩ ⟨[("EC2", 50), ("S3", 30)], 80⟩
          else .Failed "b" .AccessDenied "denied") 10).top_services
      ≤ (buildReport
        [⟨"a", .namedProfile "prod"⟩, ⟨"b", .namedProfile "staging"⟩]
        (fun c => if c.account_ref = "a"
          then .Ok ⟨"111", "A"⟩ ⟨[("EC2", 60), ("S3", 40)], 100⟩ ⟨[("EC2", 50), ("S3", 30)], 80⟩
          else .Failed "b" .AccessDenied "denied") 10).total_all := by
  apply buildReport_top_sum_le_total
  intro a ha idn cur prev hfa
  rcases List.mem_cons.mp ha with rfl | ha2
  · simp only [if_pos rfl] at hfa
    injection hfa with e1 e2 e3
    subst e2
    constructor
    · simp [valuesSum]
      norm_num
    · intro p hp
      simp at hp
      rcases hp with rfl | rfl <;> norm_num
  · rcases List.mem_cons.mp ha2 with rfl | ha3
    · simp only [List.mem_singleton] at *
      simp at hfa
    · cases ha3

/-- C7. In header-presence mode a request whose auth context lacks the
trust header, or carries it empty, is rejected with Unauthorized; no Report
is produced and the provider-call counter is left exactly where it was, so
zero provider calls happen before the rejection. -/
theorem handleReportRequest_unauthorized (ctx : AuthContext)
    (accounts : List AccountConfig) (fetch : AccountConfig → AccountResult)
    (topN : ℕ) (calls : ℕ)
    (h : ctx.trustHeader = none ∨ ctx.trustHeader = some "") :
    handleReportRequest .headerPresence ctx accounts fetch topN calls
      = (Except.error AuthError.Unauthorized, calls) := by
  rcases h with h | h <;> simp [handleReportRequest, authorized, h]

/-- C7 witness: a request without the trust header, against two configured
accounts and a zeroed call counter, is rejected with Unauthorized and the
counter stays 0. -/
theorem handleReportRequest_unauthorized_witness :
    handleReportRequest .headerPresence ⟨none⟩
        [⟨"a", .namedProfile "prod"⟩, ⟨"b", .namedProfile "staging"⟩]
        (fun c => .Failed c.account_ref .AccessDenied "denied") 10 0
      = (Except.error AuthError.Unauthorized, 0) :=
  handleReportRequest_unauthorized ⟨none⟩
    [⟨"a", .namedProfile "prod"⟩, ⟨"b", .namedProfile "staging"⟩]
    (fun c => .Failed c.account_ref .AccessDenied "denied") 10 0 (Or.inl rfl)

/-! Lemmas about the join point: reassembling completion-ordered arrivals
into configuration order (Aggregator steps 2 and 7). -/

lemma enumFrom_cons {α : Type} (n : ℕ) (a : α) (as : List α) :
    List.enumFrom n (a :: as) = (n, a) :: List.enumFrom (n + 1) as := rfl

/-- Every enumerated pair indexes its element in the underlying list. -/
lemma get?_of_mem_enumFrom {α : Type} (l : List α) :
    ∀ (n : ℕ) (p : ℕ × α), p ∈ List.enumFrom n l →
      n ≤ p.1 ∧ l.get? (p.1 - n) = some p.2 := by
  induction l with
  | nil => intro n p h; cases h
  | cons a as ih =>
      intro n p h
      rw [enumFrom_cons] at h
      rcases List.mem_cons.mp h with rfl | h2
      · exact ⟨le_refl n, by simp⟩
      · obtain ⟨hle, hget⟩ := ih (n + 1) p h2
        refine ⟨by omega, ?_⟩
        have e : p.1 - n = (p.1 - (n + 1)) + 1 := by omega
        rw [e, List.get?_cons_succ]
        exact hget

/-- The join point finds, for every account index present in the
completion order, exactly the result its fetcher produced. -/
lemma lookupResult_arrivalStream (accounts : List AccountConfig)
    (fetch : AccountConfig → AccountResult) (order : List ℕ) (i : ℕ)
    (a : AccountConfig) (hget : accounts.get? i = some a) (hmem : i ∈ order) :
    lookupResult (arrivalStream accounts fetch order) i = some (fetch a) := by
  have hget2 : accounts[i]? = some a := by
    rw [← List.get?_eq_getElem?]
    exact hget
  induction order with
  | nil => cases hmem
  | cons j rest ih =>
      by_cases hj : j = i
      · have e : arrivalStream accounts fetch (j :: rest)
            = (i, fetch a) :: arrivalStream accounts fetch rest := by
          subst hj
          simp [arrivalStream, List.filterMap_cons, hget2]
        rw [e, lookupResult, List.find?_cons_of_pos _ (by simp)]
        rfl
      · have hmem2 : i ∈ rest := by
          rcases List.mem_cons.mp hmem with rfl | h2
          · exact absurd rfl hj
          · exact h2
        cases hgj : accounts[j]? with
        | none =>
            have e : arrivalStream accounts fetch (j :: rest)
                = arrivalStream accounts fetch rest := by
              simp [arrivalStream, List.filterMap_cons, hgj]
            rw [e]
            exact ih hmem2
        | some b =>
            have e : arrivalStream accounts fetch (j :: rest)
                = (j, fetch b) :: arrivalStream accounts fetch rest := by
              simp [arrivalStream, List.filterMap_cons, hgj]
            rw [e, lookupResult, List.find?_cons_of_neg _ (by simp [hj])]
            exact ih hmem2

/-- When the stream holds a result for every enumerated account, the join
point reconstructs exactly the configured-order result list. -/
lemma collect_enumFrom (fetch : AccountConfig → AccountResult)
    (stream : List (ℕ × AccountResult)) (accounts : List AccountConfig) :
    ∀ n : ℕ,
      (∀ p ∈ List.enumFrom n accounts, lookupResult stream p.1 = some (fetch p.2)) →
      (List.enumFrom n accounts).filterMap
          (fun p => (lookupResult stream p.1).map fun r => (p.2, r))
        = accounts.map fun a => (a, fetch a) := by
  induction accounts with
  | nil => intro n _; rfl
  | cons a as ih =>
      intro n h
      have h0 := h (n, a) (by rw [enumFrom_cons]; exact List.mem_cons_self _ _)
      have htail := ih (n + 1) fun p hp =>
        h p (by rw [enumFrom_cons]; exact List.mem_cons_of_mem _ hp)
      simp [enumFrom_cons, List.filterMap_cons, h0, htail]

/-- C6. For every configured account list and every completion order of the
fetchers (any permutation of the account indices), the Report assembled
from the completion-ordered arrivals is the very Report built in
configuration order; its summaries list has exactly one entry per
configured account, produced in the caller-supplied order, never in
completion order. -/
theorem buildReportArrival_config_order (accounts : List AccountConfig)
    (fetch : AccountConfig → AccountResult) (order : List ℕ) (topN : ℕ)
    (hperm : List.Perm order (List.range accounts.length)) :
    buildReportArrival accounts fetch order topN = buildReport accounts fetch topN
    ∧ (buildReportArrival accounts fetch order topN).summaries
        = accounts.map (fun a => summaryOf a (fetch a))
    ∧ (buildReportArrival accounts fetch order topN).summaries.length
        = accounts.length := by
  have hcollect : collectInConfigOrder accounts (arrivalStream accounts fetch order)
      = accounts.map fun a => (a, fetch a) := by
    rw [collectInConfigOrder]
    apply collect_enumFrom fetch _ accounts 0
    intro p hp
    obtain ⟨_, hget⟩ := get?_of_mem_enumFrom accounts 0 p hp
    rw [Nat.sub_zero] at hget
    have hlt : p.1 < accounts.length := (List.get?_eq_some.mp hget).1
    have hmem : p.1 ∈ order := hperm.mem_iff.mpr (List.mem_range.mpr hlt)
    exact lookupResult_arrivalStream accounts fetch order p.1 p.2 hget hmem
  have hmain : buildReportArrival accounts fetch order topN
      = buildReport accounts fetch topN := by
    rw [buildReportArrival, hcollect, buildReport]
  refine ⟨hmain, ?_, ?_⟩
  · rw [hmain]
    show ((accounts.map fun a => (a, fetch a)).map fun pr => summaryOf pr.1 pr.2)
        = accounts.map (fun a => summaryOf a (fetch a))
    rw [List.map_map]
    rfl
  · rw [hmain]
    show ((accounts.map fun a => (a, fetch a)).map fun pr => summaryOf pr.1 pr.2).length
        = accounts.length
    simp

/-- C6 witness: with two configured accounts whose fetchers complete in
reversed order, the assembled Report equals the configuration-order Report
and carries one summary per account in configured order. -/
theorem buildReportArrival_config_order_witness :
    buildReportArrival
        [⟨"a", .namedProfile "prod"⟩, ⟨"b", .namedProfile "staging"⟩]
        (fun c => .Failed c.account_ref .AccessDenied "denied") [1, 0] 10
      = buildReport
        [⟨"a", .namedProfile "prod"⟩, ⟨"b", .namedProfile "staging"⟩]
        (fun c => .Failed c.account_ref .AccessDenied "denied") 10
    ∧ (buildReportArrival
        [⟨"a", .namedProfile "prod"⟩, ⟨"b", .namedProfile "staging"⟩]
        (fun c => .Failed c.account_ref .AccessDenied "denied") [1, 0] 10).summaries.length
      = 2 := by
  have h := buildReportArrival_config_order
    [⟨"a", .namedProfile "prod"⟩, ⟨"b", .namedProfile "staging"⟩]
    (fun c => .Failed c.account_ref .AccessDenied "denied") [1, 0] 10
    (by decide)
  exact ⟨h.1, h.2.2⟩

/-- C9. fetchAwsReport throws the error whose message is Request failed
followed by the status exactly when the ok flag of the response is false,
returns the parsed JSON body unchanged when ok is true, and always requests
the configured API base with a single trailing slash removed followed by
the report path. -/
theorem fetchAwsReport_spec (α : Type) (httpFetch : String → Response α)
    (env : Option String) :
    (fetchAwsReport httpFetch env
        = Except.error ("Request failed: " ++ toString (httpFetch (requestUrl env)).status)
      ↔ (httpFetch (requestUrl env)).ok = false)
    ∧ ((httpFetch (requestUrl env)).ok = true →
        fetchAwsReport httpFetch env = Except.ok (httpFetch (requestUrl env)).json)
    ∧ requestUrl env = stripTrailingSlash (getApiBase env) ++ "/report/aws" := by
  refine ⟨?_, ?_, rfl⟩
  · cases h : (httpFetch (requestUrl env)).ok <;> simp [fetchAwsReport, h]
  · intro h; simp [fetchAwsReport, h]

/-- C9 witness: a concrete 500 response at a base with a trailing slash is
turned into the Request failed error, a concrete ok response yields its
body, and the URL strips exactly one trailing slash. -/
theorem fetchAwsReport_spec_witness :
    fetchAwsReport (fun _ => (⟨false, 500, 0⟩ : Response ℕ)) (some "http://x/")
        = Except.error "Request failed: 500"
    ∧ fetchAwsReport (fun _ => (⟨true, 200, 42⟩ : Response ℕ)) (some "http://x/")
        = Except.ok 42
    ∧ requestUrl (some "http://x/") = "http://x/report/aws" := by
  refine ⟨?_, ?_, ?_⟩
  · exact (fetchAwsReport_spec ℕ (fun _ => ⟨false, 500, 0⟩) (some "http://x/")).1.mpr rfl
  · exact (fetchAwsReport_spec ℕ (fun _ => ⟨true, 200, 42⟩) (some "http://x/")).2.1 rfl
  · decide

/-- C10. For every value whose typeof is not number, null and undefined
included, formatUsd returns the dash string, and the result does not depend
on the currency formatter at all, so the formatter is never consulted; a
failed account whose summary carries a null total therefore renders as a
dash and not as a formatted zero amount. -/
theorem formatUsd_non_number (f g : ℚ → String) (v : JsValue)
    (h : v.isNumber = false) :
    formatUsd f v = "-" ∧ formatUsd f v = formatUsd g v := by
  cases v with
  | num q => simp [JsValue.isNumber] at h
  | str s => exact ⟨rfl, rfl⟩
  | nullV => exact ⟨rfl, rfl⟩
  | undefinedV => exact ⟨rfl, rfl⟩
  | boolV b => exact ⟨rfl, rfl⟩

/-- C10 witness: the null total of a failed summary renders as a dash under
a formatter that would print a zero amount for numbers. -/
theorem formatUsd_non_number_witness :
    JsValue.isNumber JsValue.nullV = false
    ∧ formatUsd (fun _ => "$0.00") JsValue.nullV = "-" :=
  ⟨rfl, (formatUsd_non_number (fun _ => "$0.00") (fun _ => "X") JsValue.nullV rfl).1⟩

end CloudCost
